import Mathlib

/-!
Shallow embedding of `elfmalloc/src/vec_alloc.rs`: the allocator-parametric
vector `AVec<T, A>` built on a `RawVec` backing store.

Memory is modelled as a list of slots, each either uninitialized or holding a
live element value.  The backing store `RawVec` is not part of `src/`
(only its callers are), so its operations (`double`, `reserve`,
`reserve_exact`, `shrink_to_fit`, and the deallocation performed by its own
destructor) are modelled from the specification, section 4.2; every
definition below that is modelled that way says so in its doc comment.
All `AVec` operations are translated directly from the Rust source.
Element destruction (`ptr::drop_in_place`) is modelled as marking a slot
uninitialized while also recording the dropped index in an event trace, so
that drop-order and drop-once properties are statable.
-/

/-- One slot of raw memory: either uninitialized or holding a live value. -/
inductive Slot (T : Type) where
  | uninit : Slot T
  | live (v : T) : Slot T
deriving DecidableEq

/-- Whether a slot holds a live value. -/
def Slot.isLive {T : Type} : Slot T → Bool
  | .uninit => false
  | .live _ => true

/-- The value in a slot, if any. -/
def Slot.val? {T : Type} : Slot T → Option T
  | .uninit => none
  | .live v => some v

/-- The three allocator strategies the container is instantiated with
(`Heap`, `DynamicAlloc`, `SharedAlloc`).  They are carried as an inert tag:
the container logic is identical for all of them. -/
inductive AllocKind where
  | heap : AllocKind
  | dynamic : AllocKind
  | shared : AllocKind
deriving DecidableEq

/-- The backing store `RawVec<T, A>`: a region of `mem.length` slots plus the
allocator handle it was obtained from.  Its capacity is the slot count. -/
structure RawVec (T : Type) where
  mem : List (Slot T)
  alloc : AllocKind
deriving DecidableEq

namespace RawVec

variable {T : Type}

/-- `RawVec::cap`: the capacity, in element slots. -/
def cap (b : RawVec T) : Nat := b.mem.length

/-- Modelled from the spec: `RawVec::new_in` / `RawVec::new` create an empty
store (capacity 0, no allocation) holding the given allocator handle. -/
def new (a : AllocKind) : RawVec T := ⟨[], a⟩

/-- Modelled from the spec: the allocator capability's `grow` returns a block
whose first `old count` slots have identical content and whose new slots are
uninitialized (the store never pre-initializes memory).  A request that does
not exceed the current capacity leaves the region as is. -/
def grow (b : RawVec T) (n : Nat) : RawVec T :=
  ⟨b.mem ++ List.replicate (n - b.mem.length) Slot.uninit, b.alloc⟩

/-- Modelled from the spec: `RawVec::double` grows capacity to
`max(1, capacity * 2)`; it is the amortization path used by `push`. -/
def double (b : RawVec T) : RawVec T :=
  b.grow (max 1 (2 * b.cap))

/-- Modelled from the spec: `RawVec::reserve(len, additional)` ensures
capacity ≥ `len + additional`; if capacity is already sufficient it is a
no-op, otherwise it grows with an exact request for the new requirement. -/
def reserve (b : RawVec T) (len additional : Nat) : RawVec T :=
  if len + additional ≤ b.cap then b else b.grow (len + additional)

/-- Modelled from the spec: `RawVec::reserve_exact` is the exact-reservation
entry point; per section 4.2 it behaves as `reserve` (exact growth to the
requirement, no doubling). -/
def reserve_exact (b : RawVec T) (len additional : Nat) : RawVec T :=
  if len + additional ≤ b.cap then b else b.grow (len + additional)

/-- Modelled from the spec: `RawVec::shrink_to_fit(new_cap)` shrinks the
block to exactly `new_cap` slots, preserving their content. -/
def shrink_to_fit (b : RawVec T) (n : Nat) : RawVec T :=
  ⟨b.mem.take n, b.alloc⟩

/-- `ptr::write(ptr.offset(i), x)`: store a live value into slot `i`. -/
def write (b : RawVec T) (i : Nat) (x : T) : RawVec T :=
  ⟨b.mem.set i (Slot.live x), b.alloc⟩

/-- `ptr::read(ptr.offset(i))`: read the value in slot `i` without mutating
memory (`none` models reading an uninitialized slot, which Rust forbids). -/
def read (b : RawVec T) (i : Nat) : Option T :=
  (b.mem.getD i Slot.uninit).val?

/-- `ptr::drop_in_place(ptr.offset(i))`: destroy the element in slot `i`,
leaving the slot uninitialized. -/
def dropAt (b : RawVec T) (i : Nat) : RawVec T :=
  ⟨b.mem.set i Slot.uninit, b.alloc⟩

end RawVec

/-- `AVec<T, A>`: a backing store plus the count of initialized slots.
From `vec_alloc.rs` lines 22-25. -/
structure AVec (T : Type) where
  buf : RawVec T
  len : Nat
deriving DecidableEq

/-- Errors surfaced by the container.  The `assert!` in the indexing
operations is modelled as this explicit error value. -/
inductive VecError where
  | indexOutOfBounds : VecError
deriving DecidableEq

namespace AVec

variable {T : Type}

/-- `VecLike::push` for `AVec` (lines 27-39): if the buffer is full, double
it; write the value into slot `len`; increment `len`. -/
def push (v : AVec T) (val : T) : AVec T :=
  let buf := if v.len == v.buf.cap then v.buf.double else v.buf
  ⟨buf.write v.len val, v.len + 1⟩

/-- `AVec::new` (lines 45-47): the `Default` instances (lines 84-109) all
build a `RawVec` with capacity 0 and set `len = 0`. -/
def new (a : AllocKind) : AVec T := ⟨RawVec.new a, 0⟩

/-- `AVec::reserve` (lines 131-133): delegate to `buf.reserve(len, extra)`. -/
def reserve (v : AVec T) (extra : Nat) : AVec T :=
  ⟨v.buf.reserve v.len extra, v.len⟩

/-- `AVec::with_capacity` (lines 49-53): start from `new`, then `reserve`. -/
def with_capacity (a : AllocKind) (cap : Nat) : AVec T :=
  (AVec.new a).reserve cap

/-- `AVec::pop` (lines 122-129): if empty return `None`; otherwise decrement
`len` and read the value out of the now-excluded last slot (memory is not
mutated; the slot is logically uninitialized afterwards). -/
def pop (v : AVec T) : Option T × AVec T :=
  if v.len == 0 then (none, v)
  else (v.buf.read (v.len - 1), ⟨v.buf, v.len - 1⟩)

/-- The `while self.len > new_cap` loop of `AVec::resize` (lines 145-150):
repeatedly decrement the length and `drop_in_place` the element at the new
length.  Returns the final store, the final length, and the trace of dropped
indices in drop order. -/
def dropLoop (b : RawVec T) (len new_cap : Nat) : RawVec T × Nat × List Nat :=
  if h : new_cap < len then
    let r := dropLoop (b.dropAt (len - 1)) (len - 1) new_cap
    (r.1, r.2.1, (len - 1) :: r.2.2)
  else
    (b, len, [])
termination_by len
decreasing_by omega

/-- `AVec::resize` (lines 135-152).  Also returns the trace of indices whose
elements were destroyed, in destruction order. -/
def resize (v : AVec T) (new_cap : Nat) : AVec T × List Nat :=
  if new_cap == v.len then (v, [])
  else if new_cap > v.len then
    (v.reserve (new_cap - v.len), [])
  else
    let r := dropLoop v.buf v.len new_cap
    (⟨(r.1).shrink_to_fit new_cap, r.2.1⟩, r.2.2)

/-- `ops::Deref` (lines 212-217): the container viewed as a contiguous slice
of exactly `len` slots starting at the buffer's base. -/
def deref (v : AVec T) : List (Slot T) := v.buf.mem.take v.len

/-- The live-element view: the values of the slots exposed by `deref`.
For a well-formed container every such slot is live, so this is the
sequence of the `len` live elements. -/
def view (v : AVec T) : List T := v.deref.filterMap Slot.val?

/-- `ops::Index<usize>` (lines 186-192): assert `ix < len`, then read slot
`ix`.  The failed assertion is the `IndexOutOfBounds` error; the container
itself is not touched by a failed access. -/
def index (v : AVec T) (ix : Nat) : Except VecError (Option T) :=
  if ix < v.len then Except.ok (v.buf.read ix) else Except.error VecError.indexOutOfBounds

/-- `ops::IndexMut<usize>` (lines 194-199), with a store through the returned
mutable reference: assert `ix < len`, then write slot `ix`. -/
def index_mut_set (v : AVec T) (ix : Nat) (x : T) : Except VecError (AVec T) :=
  if ix < v.len then Except.ok ⟨v.buf.write ix x, v.len⟩
  else Except.error VecError.indexOutOfBounds

/-- `Extend::extend` (lines 201-210): `reserve_exact(len, lower_bound)` using
the iterator's reported lower size hint, then push each yielded item in
order.  The hint is an arbitrary parameter here, exactly as an iterator may
report any lower bound. -/
def extend (v : AVec T) (size_hint_lower : Nat) (items : List T) : AVec T :=
  let v0 : AVec T := ⟨v.buf.reserve_exact v.len size_hint_lower, v.len⟩
  items.foldl AVec.push v0

/-- Pushing a whole sequence one element at a time, in order. -/
def pushAll (v : AVec T) (vals : List T) : AVec T :=
  vals.foldl AVec.push v

/-- Popping `n` times in sequence, collecting the `n` results in order. -/
def popN (v : AVec T) : Nat → List (Option T) × AVec T
  | 0 => ([], v)
  | n + 1 =>
    let r := v.pop
    let rs := r.2.popN n
    (r.1 :: rs.1, rs.2)

/-- `Drop for AVec` (lines 111-119): `drop_in_place` each slot `i` for
`i` in `0..len`, in ascending order.  Returns the final store and the trace
of dropped indices in drop order. -/
def dropRun (v : AVec T) : RawVec T × List Nat :=
  (List.range v.len).foldl (fun p i => (p.1.dropAt i, p.2 ++ [i])) (v.buf, [])

/-- A teardown event: destruction of the element in slot `i`, or the release
of the backing allocation. -/
inductive DropEvent where
  | destroy (i : Nat) : DropEvent
  | releaseAlloc : DropEvent
deriving DecidableEq

/-- The full teardown of a container: the element destructions performed by
`Drop for AVec`, followed by the release of the backing allocation.
The release step is modelled from the spec: it is performed by the `RawVec`
destructor, which is not part of `src/`. -/
def teardownEvents (v : AVec T) : List DropEvent :=
  (v.dropRun.2).map DropEvent.destroy ++ [DropEvent.releaseAlloc]

/-- The data-model invariant (spec section 3): `length ≤ capacity` and every
slot in `[0, length)` (exactly the slots exposed by `deref`) holds a live,
initialized value. -/
def Wf (v : AVec T) : Prop :=
  v.len ≤ v.buf.cap ∧ ∀ s ∈ v.deref, s.isLive = true

instance (v : AVec T) [DecidableEq T] : Decidable (Wf v) := by
  unfold Wf; infer_instance

/-- Slice equality as Rust's `[T1]: PartialEq<[T2]>` computes it: equal
lengths and element-wise `eq`, in order, reading the element values out of
the slots.  (Comparing an uninitialized slot is undefined behaviour in Rust;
here it simply yields `false`.) -/
def sliceEq {α β : Type} (eq : α → β → Bool) : List (Slot α) → List (Slot β) → Bool
  | [], [] => true
  | Slot.live a :: as', Slot.live b :: bs' => eq a b && sliceEq eq as' bs'
  | _, _ => false

/-- `PartialEq for AVec` (lines 56-66): `self[..] == other[..]`, i.e. slice
equality of the two `deref` views.  The allocator tags of the two containers
are not consulted. -/
def avecEq {α β : Type} (eq : α → β → Bool) (v : AVec α) (w : AVec β) : Bool :=
  sliceEq eq v.deref w.deref

/-- Replace the allocator tag of a container, leaving memory and length
untouched: the same container built over a different allocator strategy. -/
def withAlloc (v : AVec T) (a : AllocKind) : AVec T :=
  ⟨⟨v.buf.mem, a⟩, v.len⟩

end AVec

/-! ### Basic facts about the backing store -/

namespace RawVec

variable {T : Type}

theorem cap_grow (b : RawVec T) (n : Nat) : (b.grow n).cap = max b.cap n := by
  simp [grow, cap]
  omega

theorem take_grow (b : RawVec T) (n k : Nat) (h : k ≤ b.cap) :
    (b.grow n).mem.take k = b.mem.take k := by
  simp only [grow]
  exact List.take_append_of_le_length h

theorem getD_grow_new (b : RawVec T) (n i : Nat) (h : b.cap ≤ i) :
    (b.grow n).mem.getD i Slot.uninit = Slot.uninit := by
  simp only [grow]
  rcases Nat.lt_or_ge i (b.mem.length + (n - b.mem.length)) with hlt | hge
  · rw [List.getD_append_right _ _ _ _ h]
    have : i - b.mem.length < n - b.mem.length := by
      simp [cap] at h
      omega
    rw [List.getD_eq_getElem _ _ (by simpa using this), List.getElem_replicate]
  · rw [List.getD_eq_default]
    simpa using hge

theorem cap_double (b : RawVec T) : b.double.cap = max 1 (2 * b.cap) := by
  rw [double, cap_grow]
  omega

theorem lt_cap_double (b : RawVec T) : b.cap < b.double.cap := by
  rw [cap_double]
  omega

theorem take_double (b : RawVec T) (k : Nat) (h : k ≤ b.cap) :
    b.double.mem.take k = b.mem.take k :=
  take_grow b _ k h

theorem cap_reserve (b : RawVec T) (len additional : Nat) :
    (b.reserve len additional).cap = max b.cap (len + additional) := by
  rw [reserve]
  split
  · omega
  · rw [cap_grow]

theorem take_reserve (b : RawVec T) (len additional k : Nat) (h : k ≤ b.cap) :
    (b.reserve len additional).mem.take k = b.mem.take k := by
  rw [reserve]
  split
  · rfl
  · exact take_grow b _ k h

theorem reserve_exact_eq_reserve (b : RawVec T) (len additional : Nat) :
    b.reserve_exact len additional = b.reserve len additional := rfl

end RawVec

/-! ### Basic facts about the container operations -/

namespace AVec

variable {T : Type}

theorem filterMap_val_map_live (vals : List T) :
    (vals.map Slot.live).filterMap Slot.val? = vals := by
  induction vals with
  | nil => rfl
  | cons x xs ih => simp [Slot.val?, ih]

theorem take_succ_set (l : List (Slot T)) (i : Nat) (h : i < l.length) (s : Slot T) :
    (l.set i s).take (i + 1) = l.take i ++ [s] := by
  rw [List.take_succ, List.set_take]
  rw [List.set_eq_of_length_le (by simp)]
  rw [List.getElem?_set_self h]
  rfl

theorem push_len (v : AVec T) (x : T) : (v.push x).len = v.len + 1 := rfl

theorem push_lt_cap (v : AVec T) (x : T) (h : v.len ≤ v.buf.cap) :
    (v.push x).len ≤ (v.push x).buf.cap := by
  rw [push]
  simp only [RawVec.write, RawVec.cap, List.length_set, push_len]
  split
  · rename_i he
    rw [beq_iff_eq] at he
    have hd := RawVec.lt_cap_double v.buf
    simp only [RawVec.cap] at hd he ⊢
    omega
  · rename_i hne
    rw [beq_iff_eq] at hne
    simp only [RawVec.cap] at h ⊢
    omega

theorem push_deref (v : AVec T) (x : T) (h : v.len ≤ v.buf.cap) :
    (v.push x).deref = v.deref ++ [Slot.live x] := by
  rw [push, deref, deref]
  simp only [RawVec.write]
  split
  · rename_i he
    rw [beq_iff_eq] at he
    have hlt : v.len < v.buf.double.mem.length := by
      have hd := RawVec.lt_cap_double v.buf
      simp only [RawVec.cap] at hd he
      omega
    rw [take_succ_set _ _ hlt]
    rw [RawVec.take_double v.buf v.len h]
  · rename_i hne
    rw [beq_iff_eq] at hne
    have hlt : v.len < v.buf.mem.length := by
      simp only [RawVec.cap] at h hne
      omega
    rw [take_succ_set _ _ hlt]

theorem pushAll_spec (vals : List T) (v : AVec T) (h : v.len ≤ v.buf.cap) :
    (v.pushAll vals).deref = v.deref ++ vals.map Slot.live ∧
    (v.pushAll vals).len = v.len + vals.length ∧
    (v.pushAll vals).len ≤ (v.pushAll vals).buf.cap := by
  induction vals generalizing v with
  | nil => simpa [pushAll] using h
  | cons x xs ih =>
    have hx := push_lt_cap v x h
    have hrec := ih (v.push x) hx
    rw [pushAll] at hrec ⊢
    simp only [List.foldl_cons]
    refine ⟨?_, ?_, hrec.2.2⟩
    · rw [hrec.1, push_deref v x h]
      simp
    · rw [hrec.2.1, push_len]
      simp [List.length_cons]
      omega

theorem deref_new (a : AllocKind) : (AVec.new (T := T) a).deref = [] := rfl

end AVec

/-! ### The claims -/

/-- Claim C1: starting from a newly constructed empty container, pushing any
finite sequence of values in order via `push` leaves the live-element view
(the contiguous slots `[0, length)`) equal to exactly that sequence of values
in push order, and `length` equals the number of values pushed. -/
theorem claim_C1 {T : Type} (a : AllocKind) (vals : List T) :
    (AVec.pushAll (AVec.new a) vals).deref = vals.map Slot.live ∧
    (AVec.pushAll (AVec.new a) vals).view = vals ∧
    (AVec.pushAll (AVec.new a) vals).len = vals.length := by
  have h := AVec.pushAll_spec vals (AVec.new a) (by simp [AVec.new, RawVec.new, RawVec.cap])
  rw [AVec.deref_new] at h
  have hd : (AVec.pushAll (AVec.new a) vals).deref = vals.map Slot.live := by
    simpa using h.1
  refine ⟨hd, ?_, by simpa [AVec.new] using h.2.1⟩
  rw [AVec.view, hd, AVec.filterMap_val_map_live]

namespace AVec

variable {T : Type}

theorem pop_last (v : AVec T) (ws : List T) (x : T)
    (hlen : v.len = ws.length + 1)
    (hd : v.deref = ws.map Slot.live ++ [Slot.live x]) :
    v.pop = (some x, ⟨v.buf, ws.length⟩) ∧
    (⟨v.buf, ws.length⟩ : AVec T).deref = ws.map Slot.live := by
  have hmem : v.len ≤ v.buf.mem.length := by
    have := congrArg List.length hd
    simp [deref] at this
    omega
  have hlt : ws.length < v.buf.mem.length := by omega
  have hget : v.buf.mem.getD ws.length Slot.uninit = Slot.live x := by
    have h2 : v.deref[ws.length]? = some (Slot.live x) := by
      rw [hd, List.getElem?_append_right (by simp)]
      simp
    have h3 : v.buf.mem[ws.length]? = some (Slot.live x) := by
      rw [show v.deref = v.buf.mem.take v.len from rfl] at h2
      rwa [List.getElem?_take_of_lt (by omega)] at h2
    rw [List.getD_eq_getElem?_getD, h3]
    rfl
  constructor
  · rw [pop]
    have : (v.len == 0) = false := by simp; omega
    rw [this]
    simp only [Bool.false_eq_true, if_false]
    rw [show v.len - 1 = ws.length by omega, RawVec.read, hget]
    rfl
  · show v.buf.mem.take ws.length = ws.map Slot.live
    have h1 : v.buf.mem.take ws.length = (v.buf.mem.take v.len).take ws.length := by
      rw [List.take_take]
      congr 1
      omega
    rw [h1, show v.buf.mem.take v.len = v.deref from rfl, hd]
    rw [List.take_append_of_le_length (by simp)]
    rw [show ws.length = (ws.map Slot.live).length by simp, List.take_length]

theorem popN_spec (ws : List T) : ∀ v : AVec T, v.len = ws.length →
    v.deref = ws.map Slot.live →
    v.popN ws.length = (ws.reverse.map some, ⟨v.buf, 0⟩) := by
  induction ws using List.reverseRecOn with
  | nil =>
    intro v h1 _
    cases v with
    | mk buf len =>
      simp at h1
      subst h1
      rfl
  | append_singleton ws x ih =>
    intro v h1 h2
    have hlen : v.len = ws.length + 1 := by simpa using h1
    have hd : v.deref = ws.map Slot.live ++ [Slot.live x] := by simpa using h2
    have hp := pop_last v ws x hlen hd
    have hrec := ih ⟨v.buf, ws.length⟩ rfl hp.2
    rw [show (ws ++ [x]).length = ws.length + 1 by simp, popN, hp.1]
    simp only [hrec]
    simp

end AVec

/-- Claim C2: starting from an empty container, pushing `n` values in order
and then calling `pop` `n` times returns the `n` values in exact reverse
order of pushing, each as a present element (`some`), and one further `pop`
returns "empty" (`none`), leaving the container unchanged. -/
theorem claim_C2 {T : Type} (a : AllocKind) (vals : List T) :
    ((AVec.pushAll (AVec.new a) vals).popN vals.length).1 = vals.reverse.map some ∧
    (((AVec.pushAll (AVec.new a) vals).popN vals.length).2).pop =
      (none, ((AVec.pushAll (AVec.new a) vals).popN vals.length).2) := by
  have h := AVec.pushAll_spec vals (AVec.new a) (by simp [AVec.new, RawVec.new, RawVec.cap])
  rw [AVec.deref_new] at h
  have hd : (AVec.pushAll (AVec.new a) vals).deref = vals.map Slot.live := by
    simpa using h.1
  have hlen : (AVec.pushAll (AVec.new a) vals).len = vals.length := by
    simpa [AVec.new] using h.2.1
  have hp := AVec.popN_spec vals _ hlen hd
  rw [hp]
  exact ⟨rfl, rfl⟩

namespace RawVec

variable {T : Type}

theorem getD_reserve_new (b : RawVec T) (len additional i : Nat) (h : b.cap ≤ i) :
    (b.reserve len additional).mem.getD i Slot.uninit = Slot.uninit := by
  rw [reserve]
  split
  · exact List.getD_eq_default _ _ h
  · exact getD_grow_new b _ i h

end RawVec

/-- Claim C3: `reserve(additional)` requests capacity for exactly
`length + additional` slots via an exact growth request to the backing store
(the capacity afterwards is `max(capacity, length + additional)`, not a
doubled capacity), it changes neither the length nor the live view, and this
exact-reservation path (`reserve_exact` coincides with `reserve`) is the
entry point used by both the explicit `reserve` operation and `extend`,
whose remainder is just the sequence of pushes.
The backing store is modelled from the spec, section 4.2. -/
theorem claim_C3 {T : Type} (v : AVec T) (additional : Nat) :
    (v.reserve additional).buf.cap = max v.buf.cap (v.len + additional) ∧
    (v.reserve additional).len = v.len ∧
    (v.len ≤ v.buf.cap → (v.reserve additional).deref = v.deref) ∧
    (∀ (b : RawVec T) (len extra : Nat), b.reserve_exact len extra = b.reserve len extra) ∧
    (∀ (hint : Nat) (items : List T),
      v.extend hint items = AVec.pushAll ⟨v.buf.reserve v.len hint, v.len⟩ items) := by
  refine ⟨RawVec.cap_reserve v.buf v.len additional, rfl, ?_, ?_, ?_⟩
  · intro h
    show (v.buf.reserve v.len additional).mem.take v.len = v.buf.mem.take v.len
    exact RawVec.take_reserve v.buf v.len additional v.len h
  · intro b len extra
    exact RawVec.reserve_exact_eq_reserve b len extra
  · intro hint items
    rw [AVec.extend, AVec.pushAll, RawVec.reserve_exact_eq_reserve]

/-- Witness for claim C3 at a concrete container of two elements and a
reservation of three more slots. -/
theorem claim_C3_witness :
    ((⟨⟨[Slot.live 1, Slot.live 2], AllocKind.heap⟩, 2⟩ : AVec Nat).reserve 3).buf.cap = 5 ∧
    ((⟨⟨[Slot.live 1, Slot.live 2], AllocKind.heap⟩, 2⟩ : AVec Nat).reserve 3).deref =
      (⟨⟨[Slot.live 1, Slot.live 2], AllocKind.heap⟩, 2⟩ : AVec Nat).deref := by
  have h := claim_C3 (⟨⟨[Slot.live 1, Slot.live 2], AllocKind.heap⟩, 2⟩ : AVec Nat) 3
  exact ⟨by rw [h.1]; decide, h.2.2.1 (by decide)⟩

/-- Claim C4: for a container of length `L` with `L ≤ capacity` and any
`new_length > L`, `resize(new_length)` leaves the length and the
live-element view unchanged, destroys nothing, only ensures
`capacity ≥ new_length`, and does not initialize or materialize any new
element slot: every slot beyond the old capacity is still uninitialized. -/
theorem claim_C4 {T : Type} (v : AVec T) (new_len : Nat)
    (hcap : v.len ≤ v.buf.cap) (hgt : v.len < new_len) :
    (v.resize new_len).1.len = v.len ∧
    (v.resize new_len).1.deref = v.deref ∧
    new_len ≤ (v.resize new_len).1.buf.cap ∧
    (v.resize new_len).2 = [] ∧
    (∀ i, v.buf.cap ≤ i →
      (v.resize new_len).1.buf.mem.getD i Slot.uninit = Slot.uninit) := by
  have hne : (new_len == v.len) = false := by simp; omega
  have hres : v.resize new_len = (v.reserve (new_len - v.len), []) := by
    rw [AVec.resize, hne]
    simp only [Bool.false_eq_true, if_false]
    rw [if_pos hgt]
  rw [hres]
  refine ⟨rfl, ?_, ?_, rfl, ?_⟩
  · show (v.buf.reserve v.len (new_len - v.len)).mem.take v.len = v.buf.mem.take v.len
    exact RawVec.take_reserve v.buf v.len _ v.len hcap
  · show new_len ≤ (v.buf.reserve v.len (new_len - v.len)).cap
    rw [RawVec.cap_reserve]
    omega
  · intro i hi
    exact RawVec.getD_reserve_new v.buf v.len _ i hi

/-- Witness for claim C4: a two-element container resized upwards to five. -/
theorem claim_C4_witness :
    ((⟨⟨[Slot.live 1, Slot.live 2], AllocKind.heap⟩, 2⟩ : AVec Nat).resize 5).1.len = 2 ∧
    ((⟨⟨[Slot.live 1, Slot.live 2], AllocKind.heap⟩, 2⟩ : AVec Nat).resize 5).1.deref =
      (⟨⟨[Slot.live 1, Slot.live 2], AllocKind.heap⟩, 2⟩ : AVec Nat).deref ∧
    ((⟨⟨[Slot.live 1, Slot.live 2], AllocKind.heap⟩, 2⟩ : AVec Nat).resize 5).2 = [] := by
  have h := claim_C4 (⟨⟨[Slot.live 1, Slot.live 2], AllocKind.heap⟩, 2⟩ : AVec Nat) 5
    (by decide) (by decide)
  exact ⟨h.1, h.2.1, h.2.2.2.1⟩

namespace AVec

variable {T : Type}

theorem dropLoop_spec (k : Nat) : ∀ (d : Nat) (b : RawVec T),
    (dropLoop b (k + d) k).2.1 = k ∧
    (dropLoop b (k + d) k).2.2 = (List.range' k d).reverse ∧
    (dropLoop b (k + d) k).1.mem.take k = b.mem.take k ∧
    (dropLoop b (k + d) k).1.mem.length = b.mem.length ∧
    (dropLoop b (k + d) k).1.alloc = b.alloc := by
  intro d
  induction d with
  | zero =>
    intro b
    rw [dropLoop]
    simp
  | succ d ih =>
    intro b
    rw [dropLoop, dif_pos (by omega : k < k + (d + 1))]
    have he : k + (d + 1) - 1 = k + d := by omega
    rw [he]
    have hr := ih (b.dropAt (k + d))
    refine ⟨hr.1, ?_, ?_, ?_, hr.2.2.2.2⟩
    · show (k + d) :: (dropLoop (b.dropAt (k + d)) (k + d) k).2.2 =
        (List.range' k (d + 1)).reverse
      rw [hr.2.1, List.range'_concat]
      simp
    · show (dropLoop (b.dropAt (k + d)) (k + d) k).1.mem.take k = b.mem.take k
      rw [hr.2.2.1, RawVec.dropAt, List.set_take,
        List.set_eq_of_length_le (by rw [List.length_take]; omega)]
    · show (dropLoop (b.dropAt (k + d)) (k + d) k).1.mem.length = b.mem.length
      rw [hr.2.2.2.1, RawVec.dropAt]
      simp

end AVec

/-- Claim C5: for a container with `length = L ≤ capacity` and any `k < L`,
`resize(k)` destroys exactly the elements at indices `[k, L)`, each exactly
once, in descending index order (the destruction trace is the descending
enumeration of `[k, L)`), sets `length = k`, shrinks the backing allocation
to exactly `k` slots, and the resulting live-element view is the original
view truncated to its first `k` elements. -/
theorem claim_C5 {T : Type} (v : AVec T) (k : Nat)
    (hk : k < v.len) (hcap : v.len ≤ v.buf.cap) :
    (v.resize k).2 = (List.range' k (v.len - k)).reverse ∧
    (v.resize k).2.Nodup ∧
    (∀ i ∈ (v.resize k).2, k ≤ i ∧ i < v.len) ∧
    (v.resize k).1.len = k ∧
    (v.resize k).1.buf.cap = k ∧
    (v.resize k).1.deref = v.deref.take k := by
  have hne : (k == v.len) = false := by simp; omega
  have hngt : ¬ (k > v.len) := by omega
  have hres : v.resize k =
      (⟨(AVec.dropLoop v.buf v.len k).1.shrink_to_fit k,
        (AVec.dropLoop v.buf v.len k).2.1⟩, (AVec.dropLoop v.buf v.len k).2.2) := by
    rw [AVec.resize, hne]
    simp only [Bool.false_eq_true, if_false]
    rw [if_neg hngt]
  have he : k + (v.len - k) = v.len := by omega
  have hd := AVec.dropLoop_spec k (v.len - k) v.buf
  rw [he] at hd
  rw [hres, hd.1]
  have htr : (AVec.dropLoop v.buf v.len k).2.2 = (List.range' k (v.len - k)).reverse :=
    hd.2.1
  refine ⟨htr, ?_, ?_, rfl, ?_, ?_⟩
  · rw [htr, List.nodup_reverse]
    exact List.nodup_range' k (v.len - k)
  · intro i hi
    rw [htr, List.mem_reverse, List.mem_range'_1] at hi
    omega
  · show ((AVec.dropLoop v.buf v.len k).1.mem.take k).length = k
    rw [List.length_take, hd.2.2.2.1]
    have : k ≤ v.buf.mem.length := by
      have : v.buf.cap = v.buf.mem.length := rfl
      omega
    omega
  · show ((AVec.dropLoop v.buf v.len k).1.mem.take k).take k =
      (v.buf.mem.take v.len).take k
    rw [List.take_take, List.take_take, Nat.min_self, hd.2.2.1]
    congr 1
    omega

/-- Witness for claim C5: a three-element container resized down to one;
elements 2 and 1 are destroyed in that (descending) order. -/
theorem claim_C5_witness :
    ((⟨⟨[Slot.live 5, Slot.live 6, Slot.live 7], AllocKind.shared⟩, 3⟩ : AVec Nat).resize 1).2 =
      [2, 1] ∧
    ((⟨⟨[Slot.live 5, Slot.live 6, Slot.live 7], AllocKind.shared⟩, 3⟩ : AVec Nat).resize 1).1.len =
      1 ∧
    ((⟨⟨[Slot.live 5, Slot.live 6, Slot.live 7], AllocKind.shared⟩, 3⟩ : AVec Nat).resize 1).1.buf.cap =
      1 := by
  have h := claim_C5 (⟨⟨[Slot.live 5, Slot.live 6, Slot.live 7], AllocKind.shared⟩, 3⟩ : AVec Nat) 1
    (by decide) (by decide)
  exact ⟨by rw [h.1]; decide, h.2.2.2.1, h.2.2.2.2.1⟩

namespace AVec

variable {T : Type}

theorem all_live_eq_map (l : List (Slot T)) (h : ∀ s ∈ l, s.isLive = true) :
    l = (l.filterMap Slot.val?).map Slot.live := by
  induction l with
  | nil => rfl
  | cons s t ih =>
    cases s with
    | uninit =>
      have := h Slot.uninit (by simp)
      simp [Slot.isLive] at this
    | live a =>
      simp only [List.filterMap_cons, Slot.val?, List.map_cons, List.cons.injEq, true_and]
      exact ih fun s hs => h s (List.mem_cons_of_mem _ hs)

theorem deref_eq_view_map (v : AVec T) (hwf : Wf v) :
    v.deref = v.view.map Slot.live :=
  all_live_eq_map v.deref hwf.2

theorem view_length (v : AVec T) (hwf : Wf v) : v.view.length = v.len := by
  have h := congrArg List.length (deref_eq_view_map v hwf)
  have hlen : v.deref.length = v.len := by
    show (v.buf.mem.take v.len).length = v.len
    rw [List.length_take]
    have : v.len ≤ v.buf.mem.length := hwf.1
    omega
  simp only [List.length_map] at h
  omega

end AVec

/-- Claim C6: for every container (with the data-model invariant's capacity
bound) and every finite sequence of yielded values, `extend` leaves the
container with the same live-element view, the same live values, and the
same length as pushing each yielded value individually in order would,
regardless of the reported lower-bound size hint. -/
theorem claim_C6 {T : Type} (v : AVec T) (items : List T) (hcap : v.len ≤ v.buf.cap) :
    ∀ size_hint_lower : Nat,
      (v.extend size_hint_lower items).deref = (v.pushAll items).deref ∧
      (v.extend size_hint_lower items).view = (v.pushAll items).view ∧
      (v.extend size_hint_lower items).len = (v.pushAll items).len := by
  intro hint
  have hre : v.extend hint items =
      AVec.pushAll ⟨v.buf.reserve v.len hint, v.len⟩ items := by
    rw [AVec.extend, AVec.pushAll, RawVec.reserve_exact_eq_reserve]
  set v0 : AVec T := ⟨v.buf.reserve v.len hint, v.len⟩ with hv0
  have hcap0 : v0.len ≤ v0.buf.cap := by
    rw [hv0]
    show v.len ≤ (v.buf.reserve v.len hint).cap
    rw [RawVec.cap_reserve]
    omega
  have hd0 : v0.deref = v.deref := by
    rw [hv0]
    show (v.buf.reserve v.len hint).mem.take v.len = v.buf.mem.take v.len
    exact RawVec.take_reserve v.buf v.len hint v.len hcap
  have h0 := AVec.pushAll_spec items v0 hcap0
  have h1 := AVec.pushAll_spec items v hcap
  have hderef : (v.extend hint items).deref = (v.pushAll items).deref := by
    rw [hre, h0.1, h1.1, hd0]
  refine ⟨hderef, ?_, ?_⟩
  · rw [AVec.view, AVec.view, hderef]
  · rw [hre, h0.2.1, h1.2.1]

/-- Witness for claim C6: extending a one-element container with two items
under a deliberately wrong size hint matches pushing them individually. -/
theorem claim_C6_witness :
    ((⟨⟨[Slot.live 3], AllocKind.heap⟩, 1⟩ : AVec Nat).extend 7 [8, 9]).deref =
      ((⟨⟨[Slot.live 3], AllocKind.heap⟩, 1⟩ : AVec Nat).pushAll [8, 9]).deref ∧
    ((⟨⟨[Slot.live 3], AllocKind.heap⟩, 1⟩ : AVec Nat).extend 7 [8, 9]).len =
      ((⟨⟨[Slot.live 3], AllocKind.heap⟩, 1⟩ : AVec Nat).pushAll [8, 9]).len := by
  have h := claim_C6 (⟨⟨[Slot.live 3], AllocKind.heap⟩, 1⟩ : AVec Nat) [8, 9] (by decide) 7
  exact ⟨h.1, h.2.2⟩

/-- Claim C7: for every well-formed container and every index `ix`, a
single-index read or write succeeds iff `ix < length`; a successful read
returns exactly the element of the live view at slot `ix` (a present value),
a successful write replaces exactly slot `ix` of the view and preserves the
length, and an out-of-bounds access fails with `IndexOutOfBounds` (the
functional state, being returned unchanged only on success, is untouched by
a failed access). -/
theorem claim_C7 {T : Type} (v : AVec T) (ix : Nat) (x : T) (hwf : AVec.Wf v) :
    (ix < v.len →
      v.index ix = Except.ok v.view[ix]? ∧
      v.view[ix]?.isSome = true ∧
      v.index_mut_set ix x = Except.ok ⟨v.buf.write ix x, v.len⟩ ∧
      (⟨v.buf.write ix x, v.len⟩ : AVec T).deref = v.deref.set ix (Slot.live x) ∧
      (⟨v.buf.write ix x, v.len⟩ : AVec T).len = v.len) ∧
    (v.len ≤ ix →
      v.index ix = Except.error VecError.indexOutOfBounds ∧
      v.index_mut_set ix x = Except.error VecError.indexOutOfBounds) := by
  constructor
  · intro hix
    have hlenmem : v.len ≤ v.buf.mem.length := hwf.1
    have hvl := AVec.view_length v hwf
    obtain ⟨t, hsome⟩ : ∃ t, v.view[ix]? = some t :=
      ⟨_, List.getElem?_eq_getElem (by omega)⟩
    have hread : v.buf.read ix = v.view[ix]? := by
      have h1 : v.buf.mem[ix]? = v.deref[ix]? := by
        rw [show v.deref = v.buf.mem.take v.len from rfl,
          List.getElem?_take_of_lt hix]
      have h2 : v.deref[ix]? = (v.view[ix]?).map Slot.live := by
        rw [AVec.deref_eq_view_map v hwf, List.getElem?_map]
      rw [RawVec.read, List.getD_eq_getElem?_getD, h1, h2, hsome]
      rfl
    refine ⟨?_, ?_, ?_, ?_, rfl⟩
    · rw [AVec.index, if_pos hix, hread]
    · rw [hsome]
      rfl
    · rw [AVec.index_mut_set, if_pos hix]
    · show (v.buf.mem.set ix (Slot.live x)).take v.len =
        (v.buf.mem.take v.len).set ix (Slot.live x)
      exact List.set_take
  · intro hix
    have : ¬ ix < v.len := by omega
    exact ⟨by rw [AVec.index, if_neg this], by rw [AVec.index_mut_set, if_neg this]⟩

/-- Witness for claim C7: an in-bounds read on a two-element container and
an out-of-bounds read at index 5. -/
theorem claim_C7_witness :
    (⟨⟨[Slot.live 4, Slot.live 9], AllocKind.dynamic⟩, 2⟩ : AVec Nat).index 1 =
      Except.ok (some 9) ∧
    (⟨⟨[Slot.live 4, Slot.live 9], AllocKind.dynamic⟩, 2⟩ : AVec Nat).index 5 =
      Except.error VecError.indexOutOfBounds := by
  have h1 := claim_C7 (⟨⟨[Slot.live 4, Slot.live 9], AllocKind.dynamic⟩, 2⟩ : AVec Nat)
    1 0 (by decide)
  have h2 := claim_C7 (⟨⟨[Slot.live 4, Slot.live 9], AllocKind.dynamic⟩, 2⟩ : AVec Nat)
    5 0 (by decide)
  refine ⟨?_, (h2.2 (by decide)).1⟩
  rw [(h1.1 (by decide)).1]
  have hv : (⟨⟨[Slot.live 4, Slot.live 9], AllocKind.dynamic⟩, 2⟩ : AVec Nat).view[1]? =
      some 9 := by decide
  rw [hv]

namespace AVec

variable {T : Type}

theorem sliceEq_map_live {α : Type} [DecidableEq α] (xs ys : List α) :
    sliceEq (fun a b => decide (a = b)) (xs.map Slot.live) (ys.map Slot.live) = true ↔
    xs = ys := by
  induction xs generalizing ys with
  | nil => cases ys <;> simp [sliceEq]
  | cons x t ih =>
    cases ys with
    | nil => simp [sliceEq]
    | cons y t2 => simp [sliceEq, ih]

theorem sliceEq_symm {α : Type} [DecidableEq α] (l1 l2 : List (Slot α)) :
    sliceEq (fun a b => decide (a = b)) l1 l2 =
    sliceEq (fun a b => decide (a = b)) l2 l1 := by
  induction l1 generalizing l2 with
  | nil =>
    cases l2 with
    | nil => rfl
    | cons s t => cases s <;> rfl
  | cons s t ih =>
    cases l2 with
    | nil => cases s <;> rfl
    | cons s2 t2 =>
      cases s with
      | uninit => cases s2 <;> rfl
      | live a =>
        cases s2 with
        | uninit => rfl
        | live b =>
          show (decide (a = b) && _) = (decide (b = a) && _)
          rw [ih t2, decide_eq_decide.mpr (Iff.intro Eq.symm Eq.symm)]

end AVec

/-- Claim C8: for containers over any allocator strategies, the source's
equality (`self[..] == other[..]`) holds iff the live-element views are
equal element-wise in order; it is reflexive and symmetric on well-formed
containers; and the allocator tag never participates: replacing either
container's allocator strategy leaves the comparison unchanged. -/
theorem claim_C8 {T : Type} [DecidableEq T] (v w : AVec T) :
    (AVec.Wf v → AVec.Wf w →
      (AVec.avecEq (fun a b => decide (a = b)) v w = true ↔ v.view = w.view)) ∧
    (AVec.Wf v → AVec.avecEq (fun a b => decide (a = b)) v v = true) ∧
    AVec.avecEq (fun a b => decide (a = b)) v w =
      AVec.avecEq (fun a b => decide (a = b)) w v ∧
    (∀ a1 a2 : AllocKind,
      AVec.avecEq (fun a b => decide (a = b)) (v.withAlloc a1) (w.withAlloc a2) =
        AVec.avecEq (fun a b => decide (a = b)) v w) := by
  have hiff : AVec.Wf v → AVec.Wf w →
      (AVec.avecEq (fun a b => decide (a = b)) v w = true ↔ v.view = w.view) := by
    intro hv hw
    rw [AVec.avecEq, AVec.deref_eq_view_map v hv, AVec.deref_eq_view_map w hw]
    exact AVec.sliceEq_map_live v.view w.view
  refine ⟨hiff, ?_, ?_, ?_⟩
  · intro hv
    rw [AVec.avecEq, AVec.deref_eq_view_map v hv]
    exact (AVec.sliceEq_map_live v.view v.view).mpr rfl
  · exact AVec.sliceEq_symm v.deref w.deref
  · intro a1 a2
    rfl

/-- Witness for claim C8: two equal-view containers over different allocator
strategies compare equal; a third with a different element compares unequal
symmetrically. -/
theorem claim_C8_witness :
    AVec.avecEq (fun a b => decide (a = b))
      (⟨⟨[Slot.live 4, Slot.live 9], AllocKind.heap⟩, 2⟩ : AVec Nat)
      (⟨⟨[Slot.live 4, Slot.live 9, Slot.uninit], AllocKind.shared⟩, 2⟩ : AVec Nat) = true ∧
    AVec.avecEq (fun a b => decide (a = b))
      (⟨⟨[Slot.live 4, Slot.live 9], AllocKind.heap⟩, 2⟩ : AVec Nat)
      (⟨⟨[Slot.live 5], AllocKind.heap⟩, 1⟩ : AVec Nat) =
    AVec.avecEq (fun a b => decide (a = b))
      (⟨⟨[Slot.live 5], AllocKind.heap⟩, 1⟩ : AVec Nat)
      (⟨⟨[Slot.live 4, Slot.live 9], AllocKind.heap⟩, 2⟩ : AVec Nat) := by
  have h := claim_C8 (⟨⟨[Slot.live 4, Slot.live 9], AllocKind.heap⟩, 2⟩ : AVec Nat)
    (⟨⟨[Slot.live 4, Slot.live 9, Slot.uninit], AllocKind.shared⟩, 2⟩ : AVec Nat)
  have h2 := claim_C8 (⟨⟨[Slot.live 4, Slot.live 9], AllocKind.heap⟩, 2⟩ : AVec Nat)
    (⟨⟨[Slot.live 5], AllocKind.heap⟩, 1⟩ : AVec Nat)
  exact ⟨(h.1 (by decide) (by decide)).mpr (by decide), h2.2.2.1⟩

namespace AVec

variable {T : Type}

theorem dropFold_spec (n : Nat) : ∀ (l : List Nat) (p : RawVec T × List Nat),
    (∀ i ∈ l, i < n) →
    (l.foldl (fun p i => (p.1.dropAt i, p.2 ++ [i])) p).2 = p.2 ++ l ∧
    (l.foldl (fun p i => (p.1.dropAt i, p.2 ++ [i])) p).1.mem.drop n = p.1.mem.drop n ∧
    (l.foldl (fun p i => (p.1.dropAt i, p.2 ++ [i])) p).1.mem.length = p.1.mem.length ∧
    (l.foldl (fun p i => (p.1.dropAt i, p.2 ++ [i])) p).1.alloc = p.1.alloc := by
  intro l
  induction l with
  | nil => intro p _; simp
  | cons i t ih =>
    intro p h
    simp only [List.foldl_cons]
    have hr := ih (p.1.dropAt i, p.2 ++ [i]) fun j hj => h j (List.mem_cons_of_mem _ hj)
    refine ⟨?_, ?_, ?_, ?_⟩
    · rw [hr.1]
      simp
    · rw [hr.2.1]
      exact List.drop_set_of_lt _ _ (h i (List.mem_cons_self _ _))
    · rw [hr.2.2.1]
      show (p.1.mem.set i Slot.uninit).length = p.1.mem.length
      simp
    · exact hr.2.2.2

end AVec

/-- Claim C9: destruction of a container destroys each live element at
indices `[0, length)` exactly once, in ascending index order, never touches
any slot at or beyond `length` (every dropped index is below `length` and
the memory suffix from `length` on is untouched), and then releases the
backing allocation. -/
theorem claim_C9 {T : Type} (v : AVec T) :
    v.teardownEvents =
      (List.range v.len).map AVec.DropEvent.destroy ++ [AVec.DropEvent.releaseAlloc] ∧
    v.dropRun.2 = List.range v.len ∧
    v.dropRun.2.Nodup ∧
    (v.dropRun.2.all fun i => decide (i < v.len)) = true ∧
    v.dropRun.1.mem.drop v.len = v.buf.mem.drop v.len := by
  have h := AVec.dropFold_spec v.len (List.range v.len) (v.buf, ([] : List Nat))
    fun i hi => List.mem_range.mp hi
  have htr : v.dropRun.2 = List.range v.len := by
    rw [AVec.dropRun, h.1]
    simp
  refine ⟨?_, htr, ?_, ?_, ?_⟩
  · rw [AVec.teardownEvents, htr]
  · rw [htr]
    exact List.nodup_range v.len
  · rw [List.all_eq_true]
    intro i hi
    rw [htr, List.mem_range] at hi
    simpa using hi
  · exact h.2.1

namespace AVec

variable {T : Type}

theorem wf_new (a : AllocKind) : Wf (new (T := T) a) := by
  constructor
  · show (0 : Nat) ≤ _
    omega
  · intro s hs
    simp [deref, new, RawVec.new] at hs

theorem wf_reserve (v : AVec T) (m : Nat) (h : Wf v) : Wf (v.reserve m) := by
  constructor
  · show v.len ≤ (v.buf.reserve v.len m).cap
    rw [RawVec.cap_reserve]
    have := h.1
    omega
  · intro s hs
    apply h.2
    have hd : (v.reserve m).deref = v.deref := by
      show (v.buf.reserve v.len m).mem.take v.len = v.buf.mem.take v.len
      exact RawVec.take_reserve v.buf v.len m v.len h.1
    rwa [hd] at hs

theorem wf_with_capacity (a : AllocKind) (n : Nat) : Wf (with_capacity (T := T) a n) :=
  wf_reserve _ n (wf_new a)

theorem wf_push (v : AVec T) (x : T) (h : Wf v) : Wf (v.push x) := by
  refine ⟨push_lt_cap v x h.1, ?_⟩
  intro s hs
  rw [push_deref v x h.1] at hs
  rcases List.mem_append.mp hs with h1 | h1
  · exact h.2 s h1
  · simp at h1
    subst h1
    rfl

theorem wf_pop (v : AVec T) (h : Wf v) : Wf (v.pop).2 := by
  rw [pop]
  split
  · exact h
  · constructor
    · show v.len - 1 ≤ v.buf.cap
      have := h.1
      omega
    · intro s hs
      apply h.2
      have ht : v.buf.mem.take (v.len - 1) = (v.buf.mem.take v.len).take (v.len - 1) := by
        rw [List.take_take]
        congr 1
        omega
      rw [show (⟨v.buf, v.len - 1⟩ : AVec T).deref = v.buf.mem.take (v.len - 1) from rfl,
        ht] at hs
      exact List.take_subset _ _ hs

theorem wf_pushAll (items : List T) : ∀ v : AVec T, Wf v → Wf (v.pushAll items) := by
  induction items with
  | nil => intro v h; exact h
  | cons x t ih =>
    intro v h
    show Wf (List.foldl push v (x :: t))
    rw [List.foldl_cons]
    exact ih (v.push x) (wf_push v x h)

theorem wf_extend (v : AVec T) (hint : Nat) (items : List T) (h : Wf v) :
    Wf (v.extend hint items) := by
  have he : v.extend hint items = pushAll (v.reserve hint) items := by
    rw [extend, pushAll, RawVec.reserve_exact_eq_reserve]
    rfl
  rw [he]
  exact wf_pushAll items (v.reserve hint) (wf_reserve v hint h)

theorem wf_resize (v : AVec T) (k : Nat) (h : Wf v) : Wf (v.resize k).1 := by
  rcases Nat.lt_trichotomy k v.len with hlt | heq | hgt
  · have hne : (k == v.len) = false := by simp; omega
    have hngt : ¬ (k > v.len) := by omega
    have hres : v.resize k =
        (⟨(dropLoop v.buf v.len k).1.shrink_to_fit k,
          (dropLoop v.buf v.len k).2.1⟩, (dropLoop v.buf v.len k).2.2) := by
      rw [resize, hne]
      simp only [Bool.false_eq_true, if_false]
      rw [if_neg hngt]
    have he : k + (v.len - k) = v.len := by omega
    have hd := dropLoop_spec k (v.len - k) v.buf
    rw [he] at hd
    rw [hres, hd.1]
    constructor
    · show k ≤ ((dropLoop v.buf v.len k).1.mem.take k).length
      rw [List.length_take, hd.2.2.2.1]
      have hc : v.len ≤ v.buf.mem.length := h.1
      omega
    · intro s hs
      apply h.2
      have h1 : ((dropLoop v.buf v.len k).1.mem.take k).take k = v.buf.mem.take k := by
        rw [List.take_take, Nat.min_self, hd.2.2.1]
      have h2 : v.buf.mem.take k = (v.buf.mem.take v.len).take k := by
        rw [List.take_take]
        congr 1
        omega
      rw [show (⟨(dropLoop v.buf v.len k).1.shrink_to_fit k, k⟩ : AVec T).deref =
          ((dropLoop v.buf v.len k).1.mem.take k).take k from rfl, h1, h2] at hs
      exact List.take_subset _ _ hs
  · have hres : v.resize k = (v, []) := by
      rw [resize, if_pos (by simp [heq])]
    rw [hres]
    exact h
  · have hne : (k == v.len) = false := by simp; omega
    have hres : v.resize k = (v.reserve (k - v.len), []) := by
      rw [resize, hne]
      simp only [Bool.false_eq_true, if_false]
      rw [if_pos hgt]
    rw [hres]
    exact wf_reserve v _ h

theorem wf_index_mut_set (v : AVec T) (ix : Nat) (x : T) (h : Wf v) (w : AVec T)
    (hw : v.index_mut_set ix x = Except.ok w) : Wf w := by
  rw [index_mut_set] at hw
  split at hw
  · injection hw with hww
    subst hww
    constructor
    · show v.len ≤ (v.buf.mem.set ix (Slot.live x)).length
      have := h.1
      simpa using this
    · intro s hs
      have hd : (⟨v.buf.write ix x, v.len⟩ : AVec T).deref =
          v.deref.set ix (Slot.live x) := by
        show (v.buf.mem.set ix (Slot.live x)).take v.len =
          (v.buf.mem.take v.len).set ix (Slot.live x)
        exact List.set_take
      rw [hd] at hs
      rcases List.mem_or_eq_of_mem_set hs with h1 | h1
      · exact h.2 s h1
      · subst h1
        rfl
  · cases hw

end AVec

/-- Claim C10: every public operation — construction (`new`,
`with_capacity`), `push`, `pop`, `reserve`, `resize`, `extend`, and a
successful indexed write — preserves the data-model invariant `Wf`:
`length ≤ capacity` and every slot in `[0, length)` holds a live,
initialized element value (so slots in `[length, capacity)` are never
exposed as values). -/
theorem claim_C10 {T : Type} (v : AVec T) (x : T) (a : AllocKind)
    (n m k hint ix : Nat) (items : List T) :
    AVec.Wf (AVec.new (T := T) a) ∧
    AVec.Wf (AVec.with_capacity (T := T) a n) ∧
    (AVec.Wf v → AVec.Wf (v.push x)) ∧
    (AVec.Wf v → AVec.Wf (v.pop).2) ∧
    (AVec.Wf v → AVec.Wf (v.reserve m)) ∧
    (AVec.Wf v → AVec.Wf (v.resize k).1) ∧
    (AVec.Wf v → AVec.Wf (v.extend hint items)) ∧
    (AVec.Wf v → ∀ w, v.index_mut_set ix x = Except.ok w → AVec.Wf w) :=
  ⟨AVec.wf_new a, AVec.wf_with_capacity a n, AVec.wf_push v x, AVec.wf_pop v,
   AVec.wf_reserve v m, AVec.wf_resize v k, AVec.wf_extend v hint items,
   fun h w hw => AVec.wf_index_mut_set v ix x h w hw⟩

/-- Witness for claim C10: pushing onto a concrete well-formed container and
shrinking a concrete three-element container both preserve the invariant. -/
theorem claim_C10_witness :
    AVec.Wf ((⟨⟨[Slot.live 2, Slot.uninit], AllocKind.heap⟩, 1⟩ : AVec Nat).push 7) ∧
    AVec.Wf (((⟨⟨[Slot.live 2, Slot.live 3, Slot.live 4], AllocKind.heap⟩, 3⟩ :
      AVec Nat).resize 1).1) := by
  have h1 := claim_C10 (⟨⟨[Slot.live 2, Slot.uninit], AllocKind.heap⟩, 1⟩ : AVec Nat) 7
    AllocKind.heap 0 0 0 0 0 ([] : List Nat)
  have h2 := claim_C10 (⟨⟨[Slot.live 2, Slot.live 3, Slot.live 4], AllocKind.heap⟩, 3⟩ :
    AVec Nat) 0 AllocKind.heap 0 0 1 0 0 ([] : List Nat)
  exact ⟨h1.2.2.1 (by decide), h2.2.2.2.2.2.1 (by decide)⟩
